import Mathlib

/-!
Verification of the hashcash implementation (`src/main.rs`).

Strings are modelled as `List Char` (Rust `String` / `&str`), byte
sequences as `List Nat` with every element below 256 (Rust `Vec<u8>` /
`&[u8]`), machine integers as `Nat` with explicit `% 2^32` where the
32-bit SHA-1 arithmetic wraps.  Fallible Rust code returns
`Except`/`Option`; a Rust `panic!` (from `.unwrap()`) is modelled by a
dedicated error constructor so that it stays distinguishable from the
error values the code returns deliberately.
-/

set_option maxRecDepth 100000

namespace Hashcash

/-! ### Decimal and binary digit strings

Rust `format!("{:b}", n)` renders `n` in binary with no padding ("0" for
zero); `format!("{}", n)` renders it in decimal.  `u8::from_str` /
`usize::from_str_radix(_, 2)` accept an optional leading `+`, require at
least one digit, and reject anything else (for the bounded `u8` parse,
values above 255 are rejected as overflow). -/

/-- Binary rendering worker; the fuel only bounds the recursion depth
(structural recursion keeps the definition computable by the kernel) and
any fuel above the number of digits yields the same result. -/
def binStrGo : Nat → Nat → List Char
  | 0, _ => []
  | fuel + 1, n =>
    if n < 2 then [if n = 0 then '0' else '1']
    else binStrGo fuel (n / 2) ++ [if n % 2 = 0 then '0' else '1']

/-- Binary rendering of a natural number, as produced by `format!("{:b}", n)`. -/
def binStr (n : Nat) : List Char := binStrGo (n + 1) n

/-- Decimal rendering worker, fuelled like `binStrGo`. -/
def decStrGo : Nat → Nat → List Char
  | 0, _ => []
  | fuel + 1, n =>
    if n < 10 then [Char.ofNat (48 + n)]
    else decStrGo fuel (n / 10) ++ [Char.ofNat (48 + n % 10)]

/-- Decimal rendering of a natural number, as produced by `format!("{}", n)`. -/
def decStr (n : Nat) : List Char := decStrGo (n + 1) n

/-- Value of a decimal digit character. -/
def digitVal (c : Char) : Option Nat :=
  if '0' ≤ c ∧ c ≤ '9' then some (c.toNat - 48) else none

/-- Value of a binary digit character. -/
def binDigitVal (c : Char) : Option Nat :=
  if c = '0' then some 0 else if c = '1' then some 1 else none

/-- Strip one optional leading plus sign, as Rust integer parsing does. -/
def stripPlus : List Char → List Char
  | '+' :: rest => rest
  | s => s

/-- Model of `usize::from_str_radix(s, 2)`: optional sign, then at least
one binary digit.  (The `usize` overflow bound is not modelled; counters
are unbounded naturals here.) -/
def fromStrRadix2 (s : List Char) : Option Nat :=
  match stripPlus s with
  | [] => none
  | ds => ds.foldl (fun acc c =>
      match acc, binDigitVal c with
      | some a, some d => some (a * 2 + d)
      | _, _ => none) (some 0)

/-- Model of `s.parse::<u8>()`: optional sign, at least one decimal
digit, value at most 255. -/
def parseU8 (s : List Char) : Option Nat :=
  match stripPlus s with
  | [] => none
  | ds =>
    match ds.foldl (fun acc c =>
      match acc, digitVal c with
      | some a, some d => some (a * 10 + d)
      | _, _ => none) (some 0) with
    | some v => if v < 256 then some v else none
    | none => none

/-! ### Base64 (the `base64` crate's `general_purpose::STANDARD` engine)

Standard alphabet, `=` padding required and canonical on decode, and
non-zero trailing bits rejected (the crate's defaults). -/

/-- The standard Base64 alphabet. -/
def b64Alphabet : List Char :=
  "ABCDEFGHIJKLMNOPQRSTUVWXYZabcdefghijklmnopqrstuvwxyz0123456789+/".data

/-- Character for a 6-bit value. -/
def b64Char (n : Nat) : Char := b64Alphabet.getD n 'A'

/-- Value of a Base64 alphabet character, `none` for anything else
(including the padding character). -/
def b64DecodeChar (c : Char) : Option Nat :=
  let i := b64Alphabet.indexOf c
  if i < 64 then some i else none

/-- Base64 encoding of a byte sequence (`STANDARD.encode`), processing
input in groups of three bytes and padding the final group with `=`. -/
def b64Encode : List Nat → List Char
  | [] => []
  | [a] => [b64Char (a / 4), b64Char (a % 4 * 16), '=', '=']
  | [a, b] => [b64Char (a / 4), b64Char (a % 4 * 16 + b / 16), b64Char (b % 16 * 4), '=']
  | a :: b :: c :: rest =>
      b64Char (a / 4) :: b64Char (a % 4 * 16 + b / 16) ::
      b64Char (b % 16 * 4 + c / 64) :: b64Char (c % 64) :: b64Encode rest

/-- Base64 decoding (`STANDARD.decode`): groups of four characters,
padding only in the final group, canonical padding, zero trailing bits. -/
def b64Decode : List Char → Option (List Nat)
  | [] => some []
  | a :: b :: c :: d :: rest =>
    if c = '=' then
      if d = '=' ∧ rest = [] then
        match b64DecodeChar a, b64DecodeChar b with
        | some va, some vb =>
          if vb % 16 = 0 then some [va * 4 + vb / 16] else none
        | _, _ => none
      else none
    else if d = '=' then
      if rest = [] then
        match b64DecodeChar a, b64DecodeChar b, b64DecodeChar c with
        | some va, some vb, some vc =>
          if vc % 4 = 0 then some [va * 4 + vb / 16, vb % 16 * 16 + vc / 4] else none
        | _, _, _ => none
      else none
    else
      match b64DecodeChar a, b64DecodeChar b, b64DecodeChar c, b64DecodeChar d,
            b64Decode rest with
      | some va, some vb, some vc, some vd, some bs =>
        some ((va * 4 + vb / 16) :: (vb % 16 * 16 + vc / 4) :: (vc % 4 * 64 + vd) :: bs)
      | _, _, _, _, _ => none
  | _ => none

/-! ### UTF-8

Rust `str::as_bytes` yields the UTF-8 encoding of a string;
`std::str::from_utf8` decodes bytes back, rejecting invalid sequences
(overlong forms, surrogates, out-of-range code points, and truncated
sequences). -/

/-- UTF-8 encoding of a single character. -/
def utf8EncodeChar (c : Char) : List Nat :=
  let n := c.toNat
  if n < 0x80 then [n]
  else if n < 0x800 then [0xC0 + n / 64, 0x80 + n % 64]
  else if n < 0x10000 then [0xE0 + n / 4096, 0x80 + n / 64 % 64, 0x80 + n % 64]
  else [0xF0 + n / 262144, 0x80 + n / 4096 % 64, 0x80 + n / 64 % 64, 0x80 + n % 64]

/-- UTF-8 encoding of a string (`str::as_bytes`). -/
def utf8Encode (s : List Char) : List Nat :=
  s.flatMap utf8EncodeChar

/-- Check for a UTF-8 continuation byte. -/
def isCont (b : Nat) : Bool := 0x80 ≤ b ∧ b ≤ 0xBF

/-- Decode a two-byte UTF-8 sequence with lead byte `b` (already known
to be in `0xC2..0xDF`). -/
def utf8Two (b : Nat) : List Nat → Option (Char × List Nat)
  | b1 :: rest =>
    if isCont b1 then some (Char.ofNat ((b - 0xC0) * 64 + (b1 - 0x80)), rest)
    else none
  | _ => none

/-- Decode a three-byte UTF-8 sequence with lead byte `b` (already known
to be in `0xE0..0xEF`); the extra conditions reject overlong forms and
surrogates. -/
def utf8Three (b : Nat) : List Nat → Option (Char × List Nat)
  | b1 :: b2 :: rest =>
    if isCont b1 ∧ isCont b2
        ∧ (b = 0xE0 → 0xA0 ≤ b1) ∧ (b = 0xED → b1 ≤ 0x9F) then
      some (Char.ofNat ((b - 0xE0) * 4096 + (b1 - 0x80) * 64 + (b2 - 0x80)), rest)
    else none
  | _ => none

/-- Decode a four-byte UTF-8 sequence with lead byte `b` (already known
to be in `0xF0..0xF4`); the extra conditions reject overlong forms and
code points above `0x10FFFF`. -/
def utf8Four (b : Nat) : List Nat → Option (Char × List Nat)
  | b1 :: b2 :: b3 :: rest =>
    if isCont b1 ∧ isCont b2 ∧ isCont b3
        ∧ (b = 0xF0 → 0x90 ≤ b1) ∧ (b = 0xF4 → b1 ≤ 0x8F) then
      some (Char.ofNat ((b - 0xF0) * 262144 + (b1 - 0x80) * 4096
        + (b2 - 0x80) * 64 + (b3 - 0x80)), rest)
    else none
  | _ => none

/-- Decode one UTF-8 scalar from the front of a byte sequence, returning
the character and the remaining bytes; `none` on any invalid sequence. -/
def utf8DecodeOne : List Nat → Option (Char × List Nat)
  | [] => none
  | b :: rest =>
    if b < 0x80 then some (Char.ofNat b, rest)
    else if 0xC2 ≤ b ∧ b ≤ 0xDF then utf8Two b rest
    else if 0xE0 ≤ b ∧ b ≤ 0xEF then utf8Three b rest
    else if 0xF0 ≤ b ∧ b ≤ 0xF4 then utf8Four b rest
    else none

/-- Decoding loop; the fuel only bounds the recursion depth, and since
every step consumes at least one byte, fuel equal to the byte count is
always sufficient (the `none` at zero fuel on a nonempty list is never
reached from `utf8DecodeBytes`). -/
def utf8DecodeGo : Nat → List Nat → Option (List Char)
  | _, [] => some []
  | 0, _ :: _ => none
  | fuel + 1, b :: rest =>
    match utf8DecodeOne (b :: rest) with
    | some (c, rest') => (utf8DecodeGo fuel rest').map (c :: ·)
    | none => none

/-- Strict UTF-8 decoding (`std::str::from_utf8`): `none` on any invalid
byte sequence. -/
def utf8DecodeBytes (l : List Nat) : Option (List Char) :=
  utf8DecodeGo l.length l

/-! ### SHA-1 (the `sha1_smol` crate)

Plain SHA-1 over a byte sequence, producing the 20 digest bytes.
32-bit words are `Nat` values kept below `2^32` by explicit reduction. -/

/-- Rotate a 32-bit word left by `k` bits. -/
def rotl32 (k x : Nat) : Nat :=
  ((x <<< k) % 2 ^ 32) ||| (x >>> (32 - k))

/-- SHA-1 padding: append `0x80`, zero bytes to reach 56 mod 64, then the
bit length as 8 big-endian bytes. -/
def sha1Pad (msg : List Nat) : List Nat :=
  let len := msg.length
  let z := (119 - len % 64) % 64
  let bitLen := len * 8
  msg ++ [0x80] ++ List.replicate z 0 ++
    [bitLen / 2 ^ 56 % 256, bitLen / 2 ^ 48 % 256, bitLen / 2 ^ 40 % 256,
     bitLen / 2 ^ 32 % 256, bitLen / 2 ^ 24 % 256, bitLen / 2 ^ 16 % 256,
     bitLen / 2 ^ 8 % 256, bitLen % 256]

/-- Chunking worker; the fuel only bounds the recursion depth and is
always sufficient when it exceeds the list length. -/
def chunks64Go : Nat → List Nat → List (List Nat)
  | 0, _ => []
  | fuel + 1, l => if l = [] then [] else l.take 64 :: chunks64Go fuel (l.drop 64)

/-- Split a byte list into 64-byte chunks. -/
def chunks64 (l : List Nat) : List (List Nat) := chunks64Go (l.length + 1) l

/-- Big-endian 32-bit words from bytes. -/
def bytesToWords : List Nat → List Nat
  | a :: b :: c :: d :: rest => (a * 2 ^ 24 + b * 2 ^ 16 + c * 2 ^ 8 + d) :: bytesToWords rest
  | _ => []

/-- Extend the 16 message words to the 80-word schedule. -/
def sha1Schedule (w : Array Nat) : Array Nat :=
  (List.range 64).foldl (fun w i =>
    let j := i + 16
    w.push (rotl32 1 (w.getD (j - 3) 0 ^^^ w.getD (j - 8) 0 ^^^
                      w.getD (j - 14) 0 ^^^ w.getD (j - 16) 0))) w

/-- One SHA-1 compression round. -/
def sha1Round (w : Array Nat) (st : Nat × Nat × Nat × Nat × Nat) (i : Nat) :
    Nat × Nat × Nat × Nat × Nat :=
  let (a, b, c, d, e) := st
  let f :=
    if i < 20 then (b &&& c) ||| ((b ^^^ 0xFFFFFFFF) &&& d)
    else if i < 40 then b ^^^ c ^^^ d
    else if i < 60 then (b &&& c) ||| (b &&& d) ||| (c &&& d)
    else b ^^^ c ^^^ d
  let k :=
    if i < 20 then 0x5A827999
    else if i < 40 then 0x6ED9EBA1
    else if i < 60 then 0x8F1BBCDC
    else 0xCA62C1D6
  let temp := (rotl32 5 a + f + e + k + w.getD i 0) % 2 ^ 32
  (temp, a, rotl32 30 b, c, d)

/-- Process one 64-byte chunk. -/
def sha1Chunk (h : Nat × Nat × Nat × Nat × Nat) (chunk : List Nat) :
    Nat × Nat × Nat × Nat × Nat :=
  let (h0, h1, h2, h3, h4) := h
  let w := sha1Schedule (bytesToWords chunk).toArray
  let (a, b, c, d, e) := (List.range 80).foldl (sha1Round w) (h0, h1, h2, h3, h4)
  ((h0 + a) % 2 ^ 32, (h1 + b) % 2 ^ 32, (h2 + c) % 2 ^ 32,
   (h3 + d) % 2 ^ 32, (h4 + e) % 2 ^ 32)

/-- Big-endian bytes of a 32-bit word, as `sha1_smol`'s `Digest::bytes`. -/
def wordBytes (w : Nat) : List Nat :=
  [w >>> 24 % 256, w >>> 16 % 256, w >>> 8 % 256, w % 256]

/-- The 20 SHA-1 digest bytes of a byte sequence. -/
def sha1 (msg : List Nat) : List Nat :=
  let (h0, h1, h2, h3, h4) :=
    (chunks64 (sha1Pad msg)).foldl sha1Chunk
      (0x67452301, 0xEFCDAB89, 0x98BADCFE, 0x10325476, 0xC3D2E1F0)
  wordBytes h0 ++ wordBytes h1 ++ wordBytes h2 ++ wordBytes h3 ++ wordBytes h4

/-! ### Dates (chrono `DateTime<Utc>`, format string `"%y%m%d%H%M%S"`)

A UTC timestamp with second precision is modelled by its calendar
fields.  Formatting zero-pads each field to two digits (the year modulo
100); parsing reads six two-digit fields, mapping two-digit years 00–68
to 2000–2068 and 69–99 to 1969–1999 as chrono does, and validates the
calendar ranges.  (chrono also accepts a one-digit final field; only the
canonical twelve-digit form is modelled.) -/

/-- A UTC timestamp with second precision. -/
structure DateTimeU where
  year : Nat
  month : Nat
  day : Nat
  hour : Nat
  minute : Nat
  second : Nat
deriving DecidableEq

/-- Two-digit zero-padded decimal rendering. -/
def pad2 (n : Nat) : List Char :=
  [Char.ofNat (48 + n / 10 % 10), Char.ofNat (48 + n % 10)]

/-- Rendering of a timestamp with `DATE_FORMAT = "%y%m%d%H%M%S"`. -/
def dateStr (d : DateTimeU) : List Char :=
  pad2 (d.year % 100) ++ pad2 d.month ++ pad2 d.day ++
  pad2 d.hour ++ pad2 d.minute ++ pad2 d.second

/-- Gregorian leap year test. -/
def isLeapYear (y : Nat) : Bool :=
  y % 4 = 0 ∧ (y % 100 ≠ 0 ∨ y % 400 = 0)

/-- Days in a month of the proleptic Gregorian calendar. -/
def daysInMonth (y m : Nat) : Nat :=
  if m = 2 then (if isLeapYear y then 29 else 28)
  else if m = 4 ∨ m = 6 ∨ m = 9 ∨ m = 11 then 30
  else 31

/-- Read a two-digit decimal field. -/
def parse2 : List Char → Option (Nat × List Char)
  | a :: b :: rest =>
    match digitVal a, digitVal b with
    | some x, some y => some (x * 10 + y, rest)
    | _, _ => none
  | _ => none

/-- Parsing with `NaiveDateTime::parse_from_str(s, "%y%m%d%H%M%S")`:
six two-digit fields, chrono's two-digit-year window, calendar
validation, whole input consumed. -/
def parseDate (s : List Char) : Option DateTimeU :=
  match parse2 s with
  | none => none
  | some (y2, s) =>
  match parse2 s with
  | none => none
  | some (mo, s) =>
  match parse2 s with
  | none => none
  | some (da, s) =>
  match parse2 s with
  | none => none
  | some (ho, s) =>
  match parse2 s with
  | none => none
  | some (mi, s) =>
  match parse2 s with
  | none => none
  | some (se, s) =>
  if s = [] then
    let year := if y2 ≤ 68 then 2000 + y2 else 1900 + y2
    if 1 ≤ mo ∧ mo ≤ 12 ∧ 1 ≤ da ∧ da ≤ daysInMonth year mo
        ∧ ho ≤ 23 ∧ mi ≤ 59 ∧ se ≤ 59 then
      some ⟨year, mo, da, ho, mi, se⟩
    else none
  else none

/-- Days since 1970-01-01 of a calendar date (valid for years ≥ 1583;
Howard Hinnant's civil-from-days algorithm, restricted to positive
years). -/
def daysFromCivil (d : DateTimeU) : Int :=
  let y : Int := if d.month ≤ 2 then (d.year : Int) - 1 else (d.year : Int)
  let era := y / 400
  let yoe := y - era * 400
  let mp : Int := if d.month > 2 then (d.month : Int) - 3 else (d.month : Int) + 9
  let doy := (153 * mp + 2) / 5 + (d.day : Int) - 1
  let doe := yoe * 365 + yoe / 4 - yoe / 100 + doy
  era * 146097 + doe - 719468

/-- Seconds since the Unix epoch of a timestamp; chrono's `DateTime`
ordering and `Duration` addition agree with integer arithmetic on this
value. -/
def dateToSecs (d : DateTimeU) : Int :=
  daysFromCivil d * 86400 + (d.hour : Int) * 3600 + (d.minute : Int) * 60 + (d.second : Int)

/-- A calendar-valid timestamp: the value set `DateTime<Utc>` ranges
over (with seconds capped at 59, leap seconds ignored). -/
def validDate (d : DateTimeU) : Prop :=
  1 ≤ d.month ∧ d.month ≤ 12 ∧ 1 ≤ d.day ∧ d.day ≤ daysInMonth d.year d.month
  ∧ d.hour ≤ 23 ∧ d.minute ≤ 59 ∧ d.second ≤ 59

instance (d : DateTimeU) : Decidable (validDate d) := by
  unfold validDate
  infer_instance

/-! ### Splitting and joining on the field delimiter -/

/-- Model of Rust `str::split(c)` over `List Char`: always returns at
least one (possibly empty) part, and keeps empty parts between adjacent
delimiters. -/
def splitOnChar (c : Char) : List Char → List (List Char)
  | [] => [[]]
  | x :: xs =>
    match splitOnChar c xs with
    | [] => [[]]
    | r :: rs => if x = c then [] :: r :: rs else (x :: r) :: rs

/-- Join parts with a single-character separator, as the `write!` format
string `"{}:{}:{}:{}:{}:{}:{}"` does. -/
def intercalateChar (c : Char) : List (List Char) → List Char
  | [] => []
  | [p] => p
  | p :: ps => p ++ c :: intercalateChar c ps

/-! ### The Stamp data model (`struct Stamp` in `src/main.rs`) -/

/-- Hashcash format version (`enum FormatVersion`). -/
inductive FormatVersion
  | V0
  | V1
deriving DecidableEq

/-- Rendering of a format version (its `Display` impl). -/
def FormatVersion.render : FormatVersion → List Char
  | .V0 => ['0']
  | .V1 => ['1']

/-- The stamp record.  `requested_bits` is a `u8` (values below 256 in
well-formed stamps), `salt` a byte vector, `counter` a `usize` modelled
as an unbounded natural. -/
structure Stamp where
  version : FormatVersion
  requested_bits : Nat
  creation_date : DateTimeU
  resource : List Char
  extension : Option (List Char)
  salt : List Nat
  counter : Nat
deriving DecidableEq

/-- Errors returned by `TryFrom<String> for Stamp`.  Each constructor
stands for one of the distinct `&'static str` messages; `panicked`
models a Rust `panic!` raised by an `.unwrap()` inside the parser (not
an error value the function returns). -/
inductive DecodeError
  | missingFields
  | invalidVersion
  | invalidRequestedBits
  | invalidCreationDate
  | invalidSalt
  | invalidCounter
  | panicked
deriving DecidableEq

/-- Errors returned by `Stamp::check`, one per `&'static str` message. -/
inductive CheckError
  | resourceMismatch
  | expired
  | insufficientWork
deriving DecidableEq

instance {ε α : Type} [DecidableEq ε] [DecidableEq α] : DecidableEq (Except ε α) :=
  fun x y =>
    match x, y with
    | .ok a, .ok b => if h : a = b then .isTrue (by rw [h]) else .isFalse (by simp [h])
    | .error a, .error b => if h : a = b then .isTrue (by rw [h]) else .isFalse (by simp [h])
    | .ok _, .error _ => .isFalse (by simp)
    | .error _, .ok _ => .isFalse (by simp)

/-- Canonical text form of a stamp (its `Display` impl): the seven
fields joined by `:`, with an absent extension rendered as the empty
string (`unwrap_or_default`), the salt Base64-encoded, and the counter's
binary rendering Base64-encoded as text bytes. -/
def stampToString (s : Stamp) : List Char :=
  intercalateChar ':'
    [s.version.render,
     decStr s.requested_bits,
     dateStr s.creation_date,
     s.resource,
     s.extension.getD [],
     b64Encode s.salt,
     b64Encode (utf8Encode (binStr s.counter))]

/-- `Stamp::get_requested_zeros`: `requested_bits` copies of `'0'`. -/
def get_requested_zeros (s : Stamp) : List Char :=
  List.replicate s.requested_bits '0'

/-- `Stamp::to_binary_sha1_hash`: SHA-1 of the canonical text, each
digest byte rendered as eight binary characters (`format!("{:08b}")`)
and concatenated. -/
def pad8bin (b : Nat) : List Char :=
  List.replicate (8 - (binStr b).length) '0' ++ binStr b

/-- Binary rendering of the SHA-1 digest of the canonical text. -/
def to_binary_sha1_hash (s : Stamp) : List Char :=
  ((sha1 (utf8Encode (stampToString s))).map pad8bin).flatten

/-- `Stamp::mint`, with explicit fuel standing for the number of loop
iterations the unbounded Rust search is allowed: test whether the binary
digest rendering starts with the requested zeros; if so return the
stamp, else increment the counter and retry.  (`requested_zeros` is
computed from `requested_bits`, which the loop never changes.) -/
def mintFuel : Nat → Stamp → Option Stamp
  | 0, _ => none
  | fuel + 1, s =>
    if (get_requested_zeros s).isPrefixOf (to_binary_sha1_hash s) then some s
    else mintFuel fuel { s with counter := s.counter + 1 }

/-- `Stamp::check`, with the validator's wall clock passed explicitly as
seconds since the epoch, and the `chrono::Duration` in seconds.  The
three early returns of the source appear in order. -/
def check (s : Stamp) (resource : List Char) (expiry_duration : Int) (now : Int) :
    Except CheckError Stamp :=
  if resource ≠ s.resource then .error .resourceMismatch
  else if now ≥ dateToSecs s.creation_date + expiry_duration then .error .expired
  else if ¬ (get_requested_zeros s).isPrefixOf (to_binary_sha1_hash s) then
    .error .insufficientWork
  else .ok s

/-- `TryFrom<String> for Stamp`: split on `:`, require at least six
parts, parse version, bits and date from the front, take the resource
from index 3, populate the extension from index 4 only when more than
six parts are present, and decode salt and counter from the last two
parts.  The counter path mirrors
`usize::from_str_radix(std::str::from_utf8(&v).unwrap(), 2).unwrap()`:
both unwraps panic rather than return an error. -/
def tryFrom (value : List Char) : Except DecodeError Stamp :=
  let parts := splitOnChar ':' value
  if parts.length < 6 then .error .missingFields
  else
    match (if parts.getD 0 [] = ['0'] then some FormatVersion.V0
           else if parts.getD 0 [] = ['1'] then some FormatVersion.V1
           else none) with
    | none => .error .invalidVersion
    | some version =>
    match parseU8 (parts.getD 1 []) with
    | none => .error .invalidRequestedBits
    | some requested_bits =>
    match parseDate (parts.getD 2 []) with
    | none => .error .invalidCreationDate
    | some creation_date =>
    let resource := parts.getD 3 []
    let extension := if parts.length > 6 then some (parts.getD 4 []) else none
    match b64Decode (parts.getD (parts.length - 2) []) with
    | none => .error .invalidSalt
    | some salt =>
    match b64Decode (parts.getD (parts.length - 1) []) with
    | none => .error .invalidCounter
    | some v =>
    match utf8DecodeBytes v with
    | none => .error .panicked
    | some cs =>
    match fromStrRadix2 cs with
    | none => .error .panicked
    | some counter =>
      .ok ⟨version, requested_bits, creation_date, resource, extension, salt, counter⟩

/-! ### Concrete stamps and strings used to instantiate the theorems -/

/-- The literal example string from `main` (spec §6). -/
def fixtureStr : List Char :=
  "1:16:240525120406:2021780@uni-wuppertal.de::NFs/AwRqLgRFoCXRI7aajw==:MTExMTAwMTEwMTExMTAwMDAw".data

/-- The stamp the fixture string decodes to. -/
def fixtureStamp : Stamp :=
  ⟨.V1, 16, ⟨2024, 5, 25, 12, 4, 6⟩, "2021780@uni-wuppertal.de".data, some [],
   [52, 91, 63, 3, 4, 106, 46, 4, 69, 160, 37, 209, 35, 182, 154, 143], 249312⟩

/-- A small stamp without extension, used for round-trip instances. -/
def cexStamp : Stamp :=
  ⟨.V1, 0, ⟨2024, 5, 25, 12, 4, 6⟩, ['a'], none, [], 0⟩

/-- A small stamp with an extension, used for round-trip instances. -/
def extStamp : Stamp :=
  ⟨.V1, 16, ⟨2024, 5, 25, 12, 4, 6⟩, "a@b".data, some ['x'], [52, 91, 63], 42⟩

/-- A stamp whose proof-of-work search succeeds at counter 1:
at counter 0 the digest's first bit is 1, at counter 1 it is 0. -/
def wStamp : Stamp :=
  ⟨.V1, 1, ⟨2024, 5, 25, 12, 4, 6⟩, ['d'], none, [], 0⟩

/-- An input whose counter field is valid Base64 of `"abc"`, which is
not a binary-digit string. -/
def badCtrStr : List Char :=
  "1:16:240525120406:res::NFs/AwRqLgRFoCXRI7aajw==:YWJj".data

/-! ### Auxiliary lemmas -/

theorem binStrGo_eq {n : Nat} : ∀ {fuel : Nat}, n < fuel → binStrGo fuel n = binStr n := by
  induction n using Nat.strong_induction_on with
  | _ n ih =>
    intro fuel h
    match fuel with
    | fuel + 1 =>
      unfold binStr
      rw [binStrGo, binStrGo]
      by_cases h2 : n < 2
      · simp [h2]
      · simp only [if_neg h2]
        congr 1
        rw [ih (n / 2) (Nat.div_lt_self (by omega) (by omega)) (by omega),
            ih (n / 2) (Nat.div_lt_self (by omega) (by omega)) (by omega)]

theorem binStr_eq (n : Nat) :
    binStr n = if n < 2 then [if n = 0 then '0' else '1']
      else binStr (n / 2) ++ [if n % 2 = 0 then '0' else '1'] := by
  conv_lhs => unfold binStr; rw [binStrGo]
  by_cases h2 : n < 2
  · simp [h2]
  · simp only [if_neg h2]
    congr 1
    exact binStrGo_eq (by omega)

theorem decStrGo_eq {n : Nat} : ∀ {fuel : Nat}, n < fuel → decStrGo fuel n = decStr n := by
  induction n using Nat.strong_induction_on with
  | _ n ih =>
    intro fuel h
    match fuel with
    | fuel + 1 =>
      unfold decStr
      rw [decStrGo, decStrGo]
      by_cases h2 : n < 10
      · simp [h2]
      · simp only [if_neg h2]
        congr 1
        rw [ih (n / 10) (Nat.div_lt_self (by omega) (by omega)) (by omega),
            ih (n / 10) (Nat.div_lt_self (by omega) (by omega)) (by omega)]

theorem decStr_eq (n : Nat) :
    decStr n = if n < 10 then [Char.ofNat (48 + n)]
      else decStr (n / 10) ++ [Char.ofNat (48 + n % 10)] := by
  conv_lhs => unfold decStr; rw [decStrGo]
  by_cases h2 : n < 10
  · simp [h2]
  · simp only [if_neg h2]
    congr 1
    exact decStrGo_eq (by omega)

theorem sha1_length (msg : List Nat) : (sha1 msg).length = 20 := by
  unfold sha1
  obtain ⟨h0, h1, h2, h3, h4⟩ :=
    (chunks64 (sha1Pad msg)).foldl sha1Chunk
      (0x67452301, 0xEFCDAB89, 0x98BADCFE, 0x10325476, 0xC3D2E1F0)
  simp [wordBytes]

theorem wordBytes_lt (w : Nat) : ∀ b ∈ wordBytes w, b < 256 := by
  intro b hb
  simp only [wordBytes, List.mem_cons, List.not_mem_nil, or_false] at hb
  rcases hb with hb | hb | hb | hb
  all_goals exact hb ▸ Nat.mod_lt _ (by omega)

theorem sha1_bytes_lt (msg : List Nat) : ∀ b ∈ sha1 msg, b < 256 := by
  unfold sha1
  obtain ⟨h0, h1, h2, h3, h4⟩ :=
    (chunks64 (sha1Pad msg)).foldl sha1Chunk
      (0x67452301, 0xEFCDAB89, 0x98BADCFE, 0x10325476, 0xC3D2E1F0)
  intro b hb
  have h5 : ∀ w, b ∈ wordBytes w → b < 256 := fun w h => wordBytes_lt w b h
  simp only [List.mem_append] at hb
  tauto

theorem binStr_length_le {n k : Nat} (hk : 1 ≤ k) (h : n < 2 ^ k) :
    (binStr n).length ≤ k := by
  induction n using Nat.strong_induction_on generalizing k with
  | _ n ih =>
    rw [binStr_eq]
    split
    · simpa using hk
    · rename_i hn
      have hk2 : 2 ≤ k := by
        by_contra hlt
        interval_cases k
        omega
      have : (binStr (n / 2)).length ≤ k - 1 := by
        refine ih (n / 2) (Nat.div_lt_self (by omega) (by omega)) (by omega) ?_
        have : 2 ^ k = 2 ^ (k - 1) * 2 := by
          rw [← pow_succ]
          congr 1
          omega
        omega
      simp only [List.length_append, List.length_cons, List.length_nil]
      omega

theorem pad8bin_length {b : Nat} (h : b < 256) : (pad8bin b).length = 8 := by
  have : (binStr b).length ≤ 8 := binStr_length_le (by omega) (by norm_num; omega)
  simp only [pad8bin, List.length_append, List.length_replicate]
  omega

theorem to_binary_sha1_hash_length (s : Stamp) :
    (to_binary_sha1_hash s).length = 160 := by
  unfold to_binary_sha1_hash
  rw [List.length_flatten]
  have hmem : ∀ x ∈ ((sha1 (utf8Encode (stampToString s))).map pad8bin).map List.length,
      x = 8 := by
    intro x hx
    simp only [List.map_map, List.mem_map, Function.comp] at hx
    obtain ⟨b, hb, rfl⟩ := hx
    exact pad8bin_length (sha1_bytes_lt _ b hb)
  rw [List.eq_replicate_of_mem hmem]
  simp [sha1_length]

theorem isPrefixOf_length_le {l1 l2 : List Char} (h : l1.isPrefixOf l2) :
    l1.length ≤ l2.length :=
  (List.isPrefixOf_iff_prefix.mp h).length_le

/-! ### Splitting lemmas -/

theorem splitOnChar_ne_nil (c : Char) (l : List Char) : splitOnChar c l ≠ [] := by
  cases l with
  | nil => simp [splitOnChar]
  | cons x xs =>
    unfold splitOnChar
    cases h : splitOnChar c xs with
    | nil => simp
    | cons r rs => by_cases hx : x = c <;> simp [hx]

theorem splitOnChar_not_mem (c : Char) (l : List Char) (h : c ∉ l) :
    splitOnChar c l = [l] := by
  induction l with
  | nil => rfl
  | cons x xs ih =>
    have hx : x ≠ c := fun he => h (he ▸ List.mem_cons_self x xs)
    have hxs : c ∉ xs := fun hm => h (List.mem_cons_of_mem _ hm)
    unfold splitOnChar
    rw [ih hxs]
    simp [hx]

theorem splitOnChar_append (c : Char) (p rest : List Char) (h : c ∉ p) :
    splitOnChar c (p ++ c :: rest) = p :: splitOnChar c rest := by
  induction p with
  | nil =>
    simp only [List.nil_append]
    conv_lhs => unfold splitOnChar
    cases hs : splitOnChar c rest with
    | nil => exact absurd hs (splitOnChar_ne_nil c rest)
    | cons r rs => simp
  | cons x xs ih =>
    have hx : x ≠ c := fun he => h (he ▸ List.mem_cons_self x xs)
    have hxs : c ∉ xs := fun hm => h (List.mem_cons_of_mem _ hm)
    simp only [List.cons_append]
    conv_lhs => unfold splitOnChar
    rw [ih hxs]
    simp [hx]

theorem splitOnChar_intercalate (c : Char) (ps : List (List Char))
    (hne : ps ≠ []) (h : ∀ p ∈ ps, c ∉ p) :
    splitOnChar c (intercalateChar c ps) = ps := by
  induction ps with
  | nil => contradiction
  | cons p ps ih =>
    cases ps with
    | nil => exact splitOnChar_not_mem c p (h p (List.mem_cons_self _ _))
    | cons q qs =>
      have : intercalateChar c (p :: q :: qs) = p ++ c :: intercalateChar c (q :: qs) := rfl
      rw [this, splitOnChar_append c p _ (h p (List.mem_cons_self _ _)),
        ih (by simp) (fun x hx => h x (List.mem_cons_of_mem _ hx))]

/-! ### Character classes of the encoded fields -/

theorem digitVal_ofNat : ∀ d < 10, digitVal (Char.ofNat (48 + d)) = some d := by decide

theorem digit_ne_colon : ∀ d < 10, Char.ofNat (48 + d) ≠ ':' := by decide

theorem digit_ne_plus : ∀ d < 10, Char.ofNat (48 + d) ≠ '+' := by decide

theorem binStr_chars (n : Nat) : ∀ ch ∈ binStr n, ch = '0' ∨ ch = '1' := by
  induction n using Nat.strong_induction_on with
  | _ n ih =>
    rw [binStr_eq]
    by_cases h2 : n < 2
    · simp only [if_pos h2]
      intro ch hch
      rcases List.mem_singleton.mp hch with rfl
      by_cases h0 : n = 0 <;> simp [h0]
    · simp only [if_neg h2]
      intro ch hch
      rcases List.mem_append.mp hch with hm | hm
      · exact ih (n / 2) (Nat.div_lt_self (by omega) (by omega)) ch hm
      · rcases List.mem_singleton.mp hm with rfl
        by_cases h0 : n % 2 = 0 <;> simp [h0]

theorem decStr_chars (n : Nat) : ∀ ch ∈ decStr n, ∃ d, d < 10 ∧ ch = Char.ofNat (48 + d) := by
  induction n using Nat.strong_induction_on with
  | _ n ih =>
    rw [decStr_eq]
    by_cases h2 : n < 10
    · simp only [if_pos h2]
      intro ch hch
      rcases List.mem_singleton.mp hch with rfl
      exact ⟨n, h2, rfl⟩
    · simp only [if_neg h2]
      intro ch hch
      rcases List.mem_append.mp hch with hm | hm
      · exact ih (n / 10) (Nat.div_lt_self (by omega) (by omega)) ch hm
      · rcases List.mem_singleton.mp hm with rfl
        exact ⟨n % 10, Nat.mod_lt _ (by omega), rfl⟩

theorem pad2_chars (n : Nat) : ∀ ch ∈ pad2 n, ∃ d, d < 10 ∧ ch = Char.ofNat (48 + d) := by
  intro ch hch
  simp only [pad2, List.mem_cons, List.not_mem_nil, or_false] at hch
  rcases hch with rfl | rfl
  · exact ⟨n / 10 % 10, Nat.mod_lt _ (by omega), rfl⟩
  · exact ⟨n % 10, Nat.mod_lt _ (by omega), rfl⟩

theorem dateStr_chars (d : DateTimeU) :
    ∀ ch ∈ dateStr d, ∃ k, k < 10 ∧ ch = Char.ofNat (48 + k) := by
  intro ch hch
  simp only [dateStr, List.mem_append] at hch
  rcases hch with ((((hm | hm) | hm) | hm) | hm) | hm <;> exact pad2_chars _ ch hm

theorem binStr_no_colon (n : Nat) : ':' ∉ binStr n := by
  intro h
  rcases binStr_chars n ':' h with h0 | h0 <;> exact absurd h0 (by decide)

theorem decStr_no_colon (n : Nat) : ':' ∉ decStr n := by
  intro h
  obtain ⟨d, hd, h0⟩ := decStr_chars n ':' h
  exact digit_ne_colon d hd h0.symm

theorem dateStr_no_colon (d : DateTimeU) : ':' ∉ dateStr d := by
  intro h
  obtain ⟨k, hk, h0⟩ := dateStr_chars d ':' h
  exact digit_ne_colon k hk h0.symm

theorem b64Char_mem (n : Nat) : b64Char n ∈ b64Alphabet := by
  unfold b64Char
  rcases Nat.lt_or_ge n b64Alphabet.length with h | h
  · exact List.getD_eq_getElem b64Alphabet 'A' h ▸ List.getElem_mem h
  · rw [List.getD_eq_default _ _ h]
    decide

theorem b64Char_ne_colon (n : Nat) : b64Char n ≠ ':' := by
  intro h
  exact absurd (h ▸ b64Char_mem n) (by decide)

theorem b64Encode_chars (bs : List Nat) :
    ∀ ch ∈ b64Encode bs, ch ∈ b64Alphabet ∨ ch = '=' := by
  match bs with
  | [] => simp [b64Encode]
  | [a] =>
    intro ch hch
    simp only [b64Encode, List.mem_cons, List.not_mem_nil, or_false] at hch
    rcases hch with rfl | rfl | rfl | rfl
    · exact .inl (b64Char_mem _)
    · exact .inl (b64Char_mem _)
    · exact .inr rfl
    · exact .inr rfl
  | [a, b] =>
    intro ch hch
    simp only [b64Encode, List.mem_cons, List.not_mem_nil, or_false] at hch
    rcases hch with rfl | rfl | rfl | rfl
    · exact .inl (b64Char_mem _)
    · exact .inl (b64Char_mem _)
    · exact .inl (b64Char_mem _)
    · exact .inr rfl
  | a :: b :: c :: rest =>
    intro ch hch
    simp only [b64Encode, List.mem_cons] at hch
    rcases hch with rfl | rfl | rfl | rfl | hm
    · exact .inl (b64Char_mem _)
    · exact .inl (b64Char_mem _)
    · exact .inl (b64Char_mem _)
    · exact .inl (b64Char_mem _)
    · exact b64Encode_chars rest ch hm

theorem b64Encode_no_colon (bs : List Nat) : ':' ∉ b64Encode bs := by
  intro h
  rcases b64Encode_chars bs ':' h with h0 | h0
  · exact absurd h0 (by decide)
  · exact absurd h0 (by decide)

/-! ### Base64 round trip -/

theorem b64DecodeChar_b64Char : ∀ n < 64, b64DecodeChar (b64Char n) = some n := by decide

theorem b64Char_ne_pad : ∀ n < 64, b64Char n ≠ '=' := by decide

theorem b64_roundtrip (bs : List Nat) (h : ∀ b ∈ bs, b < 256) :
    b64Decode (b64Encode bs) = some bs := by
  match bs with
  | [] => rfl
  | [a] =>
    have ha : a < 256 := h a (by simp)
    have h1 : a / 4 < 64 := by omega
    have h2 : a % 4 * 16 < 64 := by omega
    simp only [b64Encode, b64Decode, if_pos rfl, and_self, if_true,
      b64DecodeChar_b64Char _ h1, b64DecodeChar_b64Char _ h2]
    have h3 : a % 4 * 16 % 16 = 0 := by omega
    rw [if_pos h3]
    congr 1
    have : a / 4 * 4 + a % 4 * 16 / 16 = a := by omega
    rw [this]
  | [a, b] =>
    have ha : a < 256 := h a (by simp)
    have hb : b < 256 := h b (by simp)
    have h1 : a / 4 < 64 := by omega
    have h2 : a % 4 * 16 + b / 16 < 64 := by omega
    have h3 : b % 16 * 4 < 64 := by omega
    have hne : b64Char (b % 16 * 4) ≠ '=' := b64Char_ne_pad _ h3
    simp only [b64Encode, b64Decode, if_neg hne, if_pos rfl,
      b64DecodeChar_b64Char _ h1, b64DecodeChar_b64Char _ h2, b64DecodeChar_b64Char _ h3]
    have h4 : b % 16 * 4 % 4 = 0 := by omega
    have e1 : a / 4 * 4 + (a % 4 * 16 + b / 16) / 16 = a := by omega
    simp [h4, e1]
    omega
  | a :: b :: c :: rest =>
    have ha : a < 256 := h a (by simp)
    have hb : b < 256 := h b (by simp)
    have hc : c < 256 := h c (by simp)
    have h1 : a / 4 < 64 := by omega
    have h2 : a % 4 * 16 + b / 16 < 64 := by omega
    have h3 : b % 16 * 4 + c / 64 < 64 := by omega
    have h4 : c % 64 < 64 := by omega
    have hne3 : b64Char (b % 16 * 4 + c / 64) ≠ '=' := b64Char_ne_pad _ h3
    have hne4 : b64Char (c % 64) ≠ '=' := b64Char_ne_pad _ h4
    have hrec : b64Decode (b64Encode rest) = some rest :=
      b64_roundtrip rest (fun x hx => h x (by simp [hx]))
    simp only [b64Encode, b64Decode, if_neg hne3, if_neg hne4,
      b64DecodeChar_b64Char _ h1, b64DecodeChar_b64Char _ h2,
      b64DecodeChar_b64Char _ h3, b64DecodeChar_b64Char _ h4, hrec]
    congr 1
    have e1 : a / 4 * 4 + (a % 4 * 16 + b / 16) / 16 = a := by omega
    have e2 : (a % 4 * 16 + b / 16) % 16 * 16 + (b % 16 * 4 + c / 64) / 4 = b := by omega
    have e3 : (b % 16 * 4 + c / 64) % 4 * 64 + c % 64 = c := by omega
    rw [e1, e2, e3]

/-! ### Counter and requested-bits round trips -/

theorem binStr_ne_nil (n : Nat) : binStr n ≠ [] := by
  rw [binStr_eq]
  by_cases h : n < 2 <;> simp [h]

theorem decStr_ne_nil (n : Nat) : decStr n ≠ [] := by
  rw [decStr_eq]
  by_cases h : n < 10 <;> simp [h]

theorem stripPlus_ne (x : Char) (xs : List Char) (h : x ≠ '+') :
    stripPlus (x :: xs) = x :: xs := by
  unfold stripPlus
  split
  · rename_i heq
    cases heq
    exact absurd rfl h
  · rfl

theorem radix2_foldl (n : Nat) : ∀ a : Nat,
    (binStr n).foldl (fun acc c =>
      match acc, binDigitVal c with
      | some x, some d => some (x * 2 + d)
      | _, _ => none) (some a)
    = some (a * 2 ^ (binStr n).length + n) := by
  induction n using Nat.strong_induction_on with
  | _ n ih =>
    intro a
    rw [binStr_eq]
    by_cases h2 : n < 2
    · simp only [if_pos h2, List.foldl_cons, List.foldl_nil, List.length_cons,
        List.length_nil]
      by_cases h0 : n = 0
      · subst h0
        simp [binDigitVal]
      · have h1 : n = 1 := by omega
        subst h1
        simp [binDigitVal]
    · simp only [if_neg h2, List.foldl_append, List.foldl_cons, List.foldl_nil,
        List.length_append, List.length_cons, List.length_nil]
      rw [ih (n / 2) (Nat.div_lt_self (by omega) (by omega)) a]
      have hdig : binDigitVal (if n % 2 = 0 then '0' else '1') = some (n % 2) := by
        by_cases h0 : n % 2 = 0
        · simp [h0, binDigitVal]
        · have h1 : n % 2 = 1 := by omega
          simp [h0, binDigitVal, h1]
      simp only [hdig]
      congr 1
      have hsplit : n / 2 * 2 + n % 2 = n := Nat.div_add_mod n 2 ▸ by omega
      calc (a * 2 ^ (binStr (n / 2)).length + n / 2) * 2 + n % 2
          = a * (2 ^ (binStr (n / 2)).length * 2) + (n / 2 * 2 + n % 2) := by ring
        _ = a * 2 ^ ((binStr (n / 2)).length + 0 + 1) + n := by
            rw [hsplit, pow_succ]

theorem fromStrRadix2_binStr (n : Nat) : fromStrRadix2 (binStr n) = some n := by
  have hhead : stripPlus (binStr n) = binStr n := by
    cases hb : binStr n with
    | nil => rfl
    | cons x xs =>
      refine stripPlus_ne x xs ?_
      have := binStr_chars n x (hb ▸ List.mem_cons_self x xs)
      rcases this with rfl | rfl <;> decide
  unfold fromStrRadix2
  rw [hhead]
  cases hb : binStr n with
  | nil => exact absurd hb (binStr_ne_nil n)
  | cons x xs =>
    show (x :: xs).foldl _ (some 0) = some n
    rw [← hb, radix2_foldl n 0]
    simp

theorem dec_foldl (n : Nat) : ∀ a : Nat,
    (decStr n).foldl (fun acc c =>
      match acc, digitVal c with
      | some x, some d => some (x * 10 + d)
      | _, _ => none) (some a)
    = some (a * 10 ^ (decStr n).length + n) := by
  induction n using Nat.strong_induction_on with
  | _ n ih =>
    intro a
    rw [decStr_eq]
    by_cases h2 : n < 10
    · simp only [if_pos h2, List.foldl_cons, List.foldl_nil, List.length_cons,
        List.length_nil]
      rw [digitVal_ofNat n h2]
      simp
    · simp only [if_neg h2, List.foldl_append, List.foldl_cons, List.foldl_nil,
        List.length_append, List.length_cons, List.length_nil]
      rw [ih (n / 10) (Nat.div_lt_self (by omega) (by omega)) a,
        digitVal_ofNat (n % 10) (Nat.mod_lt _ (by omega))]
      show some ((a * 10 ^ (decStr (n / 10)).length + n / 10) * 10 + n % 10) = _
      congr 1
      have hsplit : n / 10 * 10 + n % 10 = n := by omega
      calc (a * 10 ^ (decStr (n / 10)).length + n / 10) * 10 + n % 10
          = a * (10 ^ (decStr (n / 10)).length * 10) + (n / 10 * 10 + n % 10) := by ring
        _ = a * 10 ^ ((decStr (n / 10)).length + 0 + 1) + n := by
            rw [hsplit, pow_succ]

theorem parseU8_decStr (n : Nat) (h : n < 256) : parseU8 (decStr n) = some n := by
  have hhead : stripPlus (decStr n) = decStr n := by
    cases hb : decStr n with
    | nil => rfl
    | cons x xs =>
      refine stripPlus_ne x xs ?_
      obtain ⟨d, hd, rfl⟩ := decStr_chars n x (hb ▸ List.mem_cons_self x xs)
      exact digit_ne_plus d hd
  unfold parseU8
  rw [hhead]
  cases hb : decStr n with
  | nil => exact absurd hb (decStr_ne_nil n)
  | cons x xs =>
    show (match (x :: xs).foldl _ (some 0) with
      | some v => if v < 256 then some v else none
      | none => none) = some n
    rw [← hb, dec_foldl n 0]
    simp [h]

/-! ### Date round trip -/

theorem parse2_pad2 (n : Nat) (rest : List Char) :
    parse2 (pad2 n ++ rest) = some (n % 100, rest) := by
  have h1 := digitVal_ofNat (n / 10 % 10) (by omega)
  have h2 := digitVal_ofNat (n % 10) (by omega)
  simp only [pad2, List.cons_append, List.nil_append, parse2, h1, h2,
    Option.some.injEq, Prod.mk.injEq]
  exact ⟨by omega, by simp⟩

theorem parse2_pad2_nil (n : Nat) :
    parse2 (pad2 n) = some (n % 100, []) := by
  rw [← List.append_nil (pad2 n)]
  exact parse2_pad2 n []

theorem parseDate_dateStr (dt : DateTimeU) (hv : validDate dt)
    (hy1 : 1969 ≤ dt.year) (hy2 : dt.year ≤ 2068) :
    parseDate (dateStr dt) = some dt := by
  obtain ⟨y, mo, da, ho, mi, se⟩ := dt
  obtain ⟨h1, h2, h3, h4, h5, h6, h7⟩ := hv
  simp only at h1 h2 h3 h4 h5 h6 h7 hy1 hy2
  unfold dateStr
  simp only [List.append_assoc]
  unfold parseDate
  have e0 : y % 100 % 100 = y % 100 := by omega
  have e1 : mo % 100 = mo := by omega
  have e2 : da % 100 = da := by
    have : daysInMonth y mo ≤ 31 := by
      unfold daysInMonth
      split
      · split <;> omega
      · split <;> omega
    omega
  have e3 : ho % 100 = ho := by omega
  have e4 : mi % 100 = mi := by omega
  have e5 : se % 100 = se := by omega
  have eyear : (if y % 100 ≤ 68 then 2000 + y % 100 else 1900 + y % 100) = y := by
    by_cases hc : y % 100 ≤ 68
    · simp only [if_pos hc]
      omega
    · simp only [if_neg hc]
      omega
  simp only [parse2_pad2, parse2_pad2_nil, e0, e1, e2, e3, e4, e5, eyear, if_pos rfl]
  have hc : 1 ≤ mo ∧ mo ≤ 12 ∧ 1 ≤ da ∧ da ≤ daysInMonth y mo ∧ ho ≤ 23 ∧ mi ≤ 59 ∧ se ≤ 59 :=
    ⟨h1, h2, h3, h4, h5, h6, h7⟩
  simp [hc]

/-! ### UTF-8 on ASCII strings -/

theorem utf8Encode_ascii (l : List Char) (h : ∀ ch ∈ l, ch.toNat < 128) :
    utf8Encode l = l.map Char.toNat := by
  induction l with
  | nil => rfl
  | cons x xs ih =>
    have hx : x.toNat < 128 := h x (List.mem_cons_self _ _)
    have hxs := ih (fun ch hm => h ch (List.mem_cons_of_mem _ hm))
    simp only [utf8Encode, List.flatMap_cons, List.map_cons] at hxs ⊢
    rw [show utf8EncodeChar x = [x.toNat] by simp [utf8EncodeChar, hx], hxs]
    rfl

theorem utf8DecodeGo_ascii : ∀ l : List Char, (∀ ch ∈ l, ch.toNat < 128) →
    utf8DecodeGo l.length (l.map Char.toNat) = some l := by
  intro l
  induction l with
  | nil => intro _; rfl
  | cons x xs ih =>
    intro h
    have hx : x.toNat < 128 := h x (List.mem_cons_self _ _)
    show utf8DecodeGo (xs.length + 1) (x.toNat :: xs.map Char.toNat) = some (x :: xs)
    rw [utf8DecodeGo, utf8DecodeOne, if_pos hx]
    show (utf8DecodeGo xs.length (xs.map Char.toNat)).map (Char.ofNat x.toNat :: ·)
      = some (x :: xs)
    rw [ih (fun ch hm => h ch (List.mem_cons_of_mem _ hm))]
    show some (Char.ofNat x.toNat :: xs) = some (x :: xs)
    rw [Char.ofNat_toNat]

theorem utf8DecodeBytes_ascii (l : List Char) (h : ∀ ch ∈ l, ch.toNat < 128) :
    utf8DecodeBytes (l.map Char.toNat) = some l := by
  unfold utf8DecodeBytes
  rw [List.length_map]
  exact utf8DecodeGo_ascii l h

/-! ### Claims about `check` -/

/-- C2: `check` evaluates resource equality, expiry, and hash
qualification in order, short-circuiting on the first failure with
`ResourceMismatch`, `Expired`, `InsufficientWork` respectively, and on
success returns the stamp unchanged. -/
theorem check_predicate_order (s : Stamp) (r : List Char) (dur now : Int) :
    (check s r dur now = .error .resourceMismatch ↔ r ≠ s.resource)
    ∧ (check s r dur now = .error .expired ↔
        r = s.resource ∧ now ≥ dateToSecs s.creation_date + dur)
    ∧ (check s r dur now = .error .insufficientWork ↔
        r = s.resource ∧ now < dateToSecs s.creation_date + dur
        ∧ ¬ (get_requested_zeros s).isPrefixOf (to_binary_sha1_hash s))
    ∧ (check s r dur now = .ok s ↔
        r = s.resource ∧ now < dateToSecs s.creation_date + dur
        ∧ (get_requested_zeros s).isPrefixOf (to_binary_sha1_hash s))
    ∧ (∀ s', check s r dur now = .ok s' → s' = s) := by
  unfold check
  by_cases h1 : r = s.resource
  · by_cases h2 : now ≥ dateToSecs s.creation_date + dur
    · simp [h1, h2]
    · by_cases h3 : (get_requested_zeros s).isPrefixOf (to_binary_sha1_hash s)
      · simp [h1, h2, h3]
        omega
      · simp [h1, h2, h3]
        omega
  · simp [h1]

/-- C2 witness: a mismatched resource fails with `ResourceMismatch`. -/
theorem check_predicate_order_witness :
    check fixtureStamp ['q'] 86400 0 = .error .resourceMismatch :=
  (check_predicate_order fixtureStamp ['q'] 86400 0).1.mpr (by decide)

/-- C7: with a matching resource, `check` fails with `Expired` exactly
when the validator's clock is at or past `creation_date` plus the expiry
duration; the boundary instant is already expired. -/
theorem check_expired_iff (s : Stamp) (r : List Char) (dur now : Int)
    (h : r = s.resource) :
    check s r dur now = .error .expired ↔
      now ≥ dateToSecs s.creation_date + dur := by
  unfold check
  by_cases h2 : now ≥ dateToSecs s.creation_date + dur
  · simp [h, h2]
  · by_cases h3 : (get_requested_zeros s).isPrefixOf (to_binary_sha1_hash s) <;>
      simp [h, h2, h3]

/-- C7 witness: at exactly `creation_date + duration` the stamp is
expired (fixture date 2024-05-25T12:04:06Z is 1716638646 seconds, one
day of expiry puts the boundary at 1716725046). -/
theorem check_expired_iff_witness :
    check fixtureStamp fixtureStamp.resource 86400 1716725046 = .error .expired :=
  (check_expired_iff fixtureStamp fixtureStamp.resource 86400 1716725046 rfl).mpr
    (by decide)

/-- C10: with more than 160 requested bits, a matching, unexpired stamp
always fails with `InsufficientWork`: the binary digest rendering is
exactly 160 characters and cannot start with a longer run of zeros. -/
theorem check_bits_over_160_insufficient (s : Stamp) (r : List Char) (dur now : Int)
    (hbits : 160 < s.requested_bits) (hres : r = s.resource)
    (hnow : now < dateToSecs s.creation_date + dur) :
    check s r dur now = .error .insufficientWork := by
  have hpre : ¬ (get_requested_zeros s).isPrefixOf (to_binary_sha1_hash s) := by
    intro hp
    have := isPrefixOf_length_le hp
    rw [to_binary_sha1_hash_length] at this
    simp only [get_requested_zeros, List.length_replicate] at this
    omega
  unfold check
  simp [hres, hpre, not_le.mpr hnow]

/-- C10 witness: a stamp requesting 161 bits fails the work check. -/
theorem check_bits_over_160_insufficient_witness :
    check { fixtureStamp with requested_bits := 161 } fixtureStamp.resource 86400 0
      = .error .insufficientWork :=
  check_bits_over_160_insufficient _ _ 86400 0 (by decide) rfl (by decide)

/-! ### Claims about decoding -/

/-- C8: an input whose split on `:` yields fewer than six parts fails
with the `MalformedStamp` error for missing required fields. -/
theorem decode_too_few_parts (value : List Char)
    (h : (splitOnChar ':' value).length < 6) :
    tryFrom value = .error .missingFields := by
  unfold tryFrom
  simp [h]

/-- C8 witness: a three-part input is rejected as malformed. -/
theorem decode_too_few_parts_witness :
    tryFrom "a:b:c".data = .error .missingFields :=
  decode_too_few_parts "a:b:c".data (by decide)

/-- Evaluation of the fixture decode, shared by several instances. -/
theorem fixture_decode_eq : tryFrom fixtureStr = .ok fixtureStamp := by decide

/-- C4: the decoder does not return the counter error on every bad
counter: when the counter field is valid Base64 of bytes that are not a
binary-digit string (here Base64 of `"abc"`), the Rust code panics on
`unwrap` instead of returning `Err("Invalid counter")`. -/
theorem decode_nonbinary_counter_panics :
    tryFrom badCtrStr = .error .panicked := by decide

/-- C5 counterexample: the fixture string decodes with
`extension = Some ""` (its split has seven parts, the fifth empty), not
`None`, and with counter 249312 (binary value of the eighteen-character
string `"111100110111100000"` that its counter field actually Base64-
decodes to), not 15957184 (the binary value of the twenty-four-character
string named in the claim). -/
theorem fixture_decode_cex :
    ∃ s, tryFrom fixtureStr = Except.ok s
      ∧ s.extension ≠ none ∧ s.counter ≠ 15957184 :=
  ⟨fixtureStamp, fixture_decode_eq, by decide, by decide⟩

/-- C5 amended: the fixture string decodes to version 1, 16 requested
bits, creation date 2024-05-25T12:04:06Z, the resource
`2021780@uni-wuppertal.de`, extension `Some ""`, the sixteen salt bytes
of Base64-decoding `"NFs/AwRqLgRFoCXRI7aajw=="`, and counter 249312, the
binary value of `"111100110111100000"`. -/
theorem fixture_decode_amended :
    tryFrom fixtureStr = Except.ok
      ⟨.V1, 16, ⟨2024, 5, 25, 12, 4, 6⟩, "2021780@uni-wuppertal.de".data, some [],
       [52, 91, 63, 3, 4, 106, 46, 4, 69, 160, 37, 209, 35, 182, 154, 143], 249312⟩ :=
  fixture_decode_eq

/-- C6: for every successfully decoded input, the salt is decoded from
the second-to-last colon-separated part, the counter from the last part
(via Base64, UTF-8, then radix-2 parsing), and the extension is taken
from the fifth part exactly when there are strictly more than six
parts. -/
theorem decode_positional_fields (value : List Char) (s : Stamp)
    (h : tryFrom value = .ok s) :
    b64Decode ((splitOnChar ':' value).getD ((splitOnChar ':' value).length - 2) [])
        = some s.salt
    ∧ (∃ bs cs,
        b64Decode ((splitOnChar ':' value).getD ((splitOnChar ':' value).length - 1) [])
            = some bs
        ∧ utf8DecodeBytes bs = some cs ∧ fromStrRadix2 cs = some s.counter)
    ∧ s.extension = (if 6 < (splitOnChar ':' value).length
        then some ((splitOnChar ':' value).getD 4 []) else none) := by
  simp only [tryFrom] at h
  split at h
  · exact absurd h (by simp)
  · split at h
    · exact absurd h (by simp)
    · split at h
      · exact absurd h (by simp)
      · split at h
        · exact absurd h (by simp)
        · split at h
          · exact absurd h (by simp)
          · split at h
            · exact absurd h (by simp)
            · split at h
              · exact absurd h (by simp)
              · split at h
                · exact absurd h (by simp)
                · rename_i saltv hsalt _ ctrv hctr _ csv hutf8 _ ctrn hradix
                  cases h
                  exact ⟨hsalt, ⟨ctrv, csv, hctr, hutf8, hradix⟩, rfl⟩

/-- C6 witness: the fixture instantiates the positional decode rules. -/
theorem decode_positional_fields_witness :
    b64Decode ((splitOnChar ':' fixtureStr).getD ((splitOnChar ':' fixtureStr).length - 2) [])
        = some fixtureStamp.salt
    ∧ (∃ bs cs,
        b64Decode ((splitOnChar ':' fixtureStr).getD ((splitOnChar ':' fixtureStr).length - 1) [])
            = some bs
        ∧ utf8DecodeBytes bs = some cs ∧ fromStrRadix2 cs = some fixtureStamp.counter)
    ∧ fixtureStamp.extension = (if 6 < (splitOnChar ':' fixtureStr).length
        then some ((splitOnChar ':' fixtureStr).getD 4 []) else none) :=
  decode_positional_fields fixtureStr fixtureStamp fixture_decode_eq

/-- C3 counterexample: a stamp with `extension = None` (and a colon-free
resource) does not round-trip to itself: its canonical text has seven
colon-separated fields, so decoding populates `extension = Some ""`. -/
theorem encode_decode_roundtrip_cex :
    ∃ s', tryFrom (stampToString cexStamp) = Except.ok s' ∧ s' ≠ cexStamp :=
  ⟨{ cexStamp with extension := some [] }, by decide, by decide⟩

/-- C3 amended: for every stamp with a valid field combination (colon-free
resource and extension content, `requested_bits` a `u8` value, salt made
of bytes, calendar-valid creation date with a year the two-digit format
can represent), decoding the canonical text encoding succeeds and
reproduces every field exactly except that the extension comes back as
`Some` of the original extension's value-or-empty: `Some x` round-trips
to `Some x` and `None` becomes `Some ""`. -/
theorem encode_decode_roundtrip_amended (s : Stamp)
    (hres : ':' ∉ s.resource)
    (hext : ':' ∉ s.extension.getD [])
    (hbits : s.requested_bits < 256)
    (hsalt : ∀ b ∈ s.salt, b < 256)
    (hdate : validDate s.creation_date)
    (hy1 : 1969 ≤ s.creation_date.year) (hy2 : s.creation_date.year ≤ 2068) :
    tryFrom (stampToString s)
      = Except.ok { s with extension := some (s.extension.getD []) } := by
  obtain ⟨ver, bits, date, res, ext, salt, ctr⟩ := s
  simp only at hres hext hbits hsalt hdate hy1 hy2
  have hctr_ascii : ∀ ch ∈ binStr ctr, ch.toNat < 128 := by
    intro ch hch
    rcases binStr_chars _ ch hch with rfl | rfl <;> decide
  have henc : utf8Encode (binStr ctr) = (binStr ctr).map Char.toNat :=
    utf8Encode_ascii _ hctr_ascii
  have hctr_bytes : ∀ b ∈ (binStr ctr).map Char.toNat, b < 256 := by
    intro b hb
    simp only [List.mem_map] at hb
    obtain ⟨ch, hch, rfl⟩ := hb
    have := hctr_ascii ch hch
    omega
  have hsplit : splitOnChar ':' (stampToString ⟨ver, bits, date, res, ext, salt, ctr⟩)
      = [FormatVersion.render ver, decStr bits, dateStr date, res, ext.getD [],
         b64Encode salt, b64Encode (utf8Encode (binStr ctr))] := by
    refine splitOnChar_intercalate ':' _ (by simp) ?_
    intro p hp
    simp only [List.mem_cons, List.not_mem_nil, or_false] at hp
    rcases hp with rfl | rfl | rfl | rfl | rfl | rfl | rfl
    · cases ver <;> decide
    · exact decStr_no_colon _
    · exact dateStr_no_colon _
    · exact hres
    · exact hext
    · exact b64Encode_no_colon _
    · exact b64Encode_no_colon _
  simp only [tryFrom, hsplit]
  rw [show List.getD [FormatVersion.render ver, decStr bits, dateStr date, res,
        ext.getD [], b64Encode salt, b64Encode (utf8Encode (binStr ctr))] 1 []
      = decStr bits from rfl,
    parseU8_decStr bits hbits,
    show List.getD [FormatVersion.render ver, decStr bits, dateStr date, res,
        ext.getD [], b64Encode salt, b64Encode (utf8Encode (binStr ctr))] 2 []
      = dateStr date from rfl,
    parseDate_dateStr date hdate hy1 hy2]
  rw [show List.getD [FormatVersion.render ver, decStr bits, dateStr date, res,
        ext.getD [], b64Encode salt, b64Encode (utf8Encode (binStr ctr))]
        ((List.length [FormatVersion.render ver, decStr bits, dateStr date, res,
          ext.getD [], b64Encode salt, b64Encode (utf8Encode (binStr ctr))]) - 2) []
      = b64Encode salt from rfl,
    b64_roundtrip salt hsalt]
  rw [show List.getD [FormatVersion.render ver, decStr bits, dateStr date, res,
        ext.getD [], b64Encode salt, b64Encode (utf8Encode (binStr ctr))]
        ((List.length [FormatVersion.render ver, decStr bits, dateStr date, res,
          ext.getD [], b64Encode salt, b64Encode (utf8Encode (binStr ctr))]) - 1) []
      = b64Encode (utf8Encode (binStr ctr)) from rfl]
  simp only [henc, b64_roundtrip ((binStr ctr).map Char.toNat) hctr_bytes,
    utf8DecodeBytes_ascii (binStr ctr) hctr_ascii, fromStrRadix2_binStr]
  cases ver <;> rfl

/-- C3 witness: the concrete stamp `extStamp` (extension `Some "x"`)
round-trips with its extension preserved. -/
theorem encode_decode_roundtrip_amended_witness :
    tryFrom (stampToString extStamp)
      = Except.ok { extStamp with extension := some (extStamp.extension.getD []) } :=
  encode_decode_roundtrip_amended extStamp (by decide) (by decide) (by decide)
    (by decide) (by decide) (by decide) (by decide)

/-! ### Claims about `mint` -/

/-- C1: when `mint` returns, the returned stamp's binary SHA-1 digest
rendering starts with `requested_bits` zero characters, the counter
never decreased, and every field other than the counter is unchanged. -/
theorem mint_qualifies_and_monotone (f : Nat) (s s' : Stamp)
    (h : mintFuel f s = some s') :
    (get_requested_zeros s').isPrefixOf (to_binary_sha1_hash s')
    ∧ s.counter ≤ s'.counter
    ∧ s'.version = s.version ∧ s'.requested_bits = s.requested_bits
    ∧ s'.creation_date = s.creation_date ∧ s'.resource = s.resource
    ∧ s'.extension = s.extension ∧ s'.salt = s.salt := by
  induction f generalizing s with
  | zero => simp [mintFuel] at h
  | succ f ih =>
    rw [mintFuel] at h
    split at h
    · rename_i hq
      cases h
      exact ⟨hq, le_refl _, rfl, rfl, rfl, rfl, rfl, rfl⟩
    · have := ih _ h
      simp only at this
      refine ⟨this.1, ?_, this.2.2⟩
      have := this.2.1
      simp only at this
      omega

/-- C1 witness: a stamp requesting zero bits mints immediately to
itself. -/
theorem mint_qualifies_and_monotone_witness :
    (get_requested_zeros cexStamp).isPrefixOf (to_binary_sha1_hash cexStamp)
    ∧ cexStamp.counter ≤ cexStamp.counter
    ∧ cexStamp.version = cexStamp.version
    ∧ cexStamp.requested_bits = cexStamp.requested_bits
    ∧ cexStamp.creation_date = cexStamp.creation_date
    ∧ cexStamp.resource = cexStamp.resource
    ∧ cexStamp.extension = cexStamp.extension
    ∧ cexStamp.salt = cexStamp.salt :=
  mint_qualifies_and_monotone 1 cexStamp cexStamp (by decide)

/-- C9: when `mint` returns, the returned counter is the least
qualifying value at or above the initial counter: every counter in
between fails the zero-bits test. -/
theorem mint_minimal_counter (f : Nat) (s s' : Stamp) (h : mintFuel f s = some s')
    (c : Nat) (hc1 : s.counter ≤ c) (hc2 : c < s'.counter) :
    ¬ (get_requested_zeros { s with counter := c }).isPrefixOf
        (to_binary_sha1_hash { s with counter := c }) := by
  induction f generalizing s with
  | zero => simp [mintFuel] at h
  | succ f ih =>
    rw [mintFuel] at h
    split at h
    · cases h
      omega
    · rename_i hq
      rcases Nat.eq_or_lt_of_le hc1 with heq | hlt
      · rw [← heq]
        exact fun hp => hq hp
      · exact ih { s with counter := s.counter + 1 } h (by simpa using hlt)

/-- C9 witness: for the concrete stamp `wStamp` mint finishes at
counter 1, and counter 0 indeed fails the test. -/
theorem mint_minimal_counter_witness :
    ¬ (get_requested_zeros { wStamp with counter := 0 }).isPrefixOf
        (to_binary_sha1_hash { wStamp with counter := 0 }) :=
  mint_minimal_counter 2 wStamp { wStamp with counter := 1 } (by decide) 0
    (by decide) (by decide)

end Hashcash
